import Mathlib

/-!
Verification development for the webseed2torznab repository (main.go).

Byte strings are modelled as `List Nat` (one entry per byte).  The bencode
codec used by the program lives in the external `bencode` library; it is
modelled here from the specification (section 4.1): a fueled recursive
decoder and a canonical (sorted-key) encoder.  The SHA-1 function from the
Go standard library is kept abstract: every statement that involves it is
universally quantified over the hash function `h`.  Go's `time.Now()` is
modelled by an explicit parameter `now`, and `ioutil.ReadFile`'s read
buffer (capacity at least `bytes.MinRead = 512`, zero initialised) is
modelled where the fallback slice expression `data[:20]` needs it.
-/

namespace W2T

/-- Test for an ASCII decimal digit byte. -/
def isDigitByte (c : Nat) : Bool := 48 ≤ c && c ≤ 57

/-- ASCII lower-casing of a single byte (Go strings.ToLower on ASCII). -/
def lowerByte (c : Nat) : Nat := if 65 ≤ c && c ≤ 90 then c + 32 else c

/-- ASCII lower-casing of a byte string. -/
def lowerBytes (s : List Nat) : List Nat := s.map lowerByte

/-- Lexicographic order on byte strings, the order Go uses to sort the keys
of a `map[string]...` when bencode-encoding it. -/
def keyLe : List Nat → List Nat → Bool
  | [], _ => true
  | _ :: _, [] => false
  | a :: as, b :: bs => a < b || (a = b && keyLe as bs)

/-- Decimal ASCII digits of a natural number, most significant first. -/
def asciiDigits (n : Nat) : List Nat :=
  if n = 0 then [48] else ((Nat.digits 10 n).map (· + 48)).reverse

/-- Value of a most-significant-first list of decimal digit values. -/
def natVal (ds : List Nat) : Nat := ds.foldl (fun a d => 10 * a + d) 0

/-- Value of a most-significant-first list of ASCII digit bytes. -/
def digitsVal (ds : List Nat) : Nat := ds.foldl (fun a c => 10 * a + (c - 48)) 0

/-- Split a leading run of ASCII digit bytes from a byte string. -/
def readDigits : List Nat → List Nat × List Nat
  | [] => ([], [])
  | c :: r =>
    if isDigitByte c then
      let p := readDigits r
      (c :: p.1, p.2)
    else ([], c :: r)

/-- Does `hay` start with `needle`?  (Models Go's prefix test used by
strings.Contains.) -/
def startsWith : List Nat → List Nat → Bool
  | [], _ => true
  | _ :: _, [] => false
  | a :: as, b :: bs => a = b && startsWith as bs

/-- Substring test: models Go's `strings.Contains hay needle`. -/
def containsSub (hay needle : List Nat) : Bool :=
  match hay with
  | [] => needle.isEmpty
  | _ :: t => startsWith needle hay || containsSub t needle

/-- The bencode value tree (spec section 3): integers, byte strings, lists
and dictionaries, a dictionary being a sequence of key-value pairs in the
order they occur in the input stream. -/
inductive Bencode where
  | int (i : Int)
  | str (s : List Nat)
  | list (items : List Bencode)
  | dict (pairs : List (List Nat × Bencode))

/- Size measure over bencode values, used to derive an induction
principle for the nested inductive type. -/
mutual
def bsize : Bencode → Nat
  | .int _ => 1
  | .str _ => 1
  | .list l => 1 + bsizeL l
  | .dict d => 1 + bsizeP d
def bsizeL : List Bencode → Nat
  | [] => 0
  | v :: r => bsize v + bsizeL r
def bsizeP : List (List Nat × Bencode) → Nat
  | [] => 0
  | p :: r => bsize p.2 + bsizeP r
end

theorem bsize_pos : ∀ v : Bencode, 1 ≤ bsize v := by
  intro v
  cases v <;> simp only [bsize] <;> omega

theorem bsizeL_mem : ∀ (l : List Bencode) (x : Bencode), x ∈ l → bsize x ≤ bsizeL l := by
  intro l
  induction l with
  | nil => intro x hx; cases hx
  | cons v r ih =>
    intro x hx
    cases hx with
    | head => simp only [bsizeL]; omega
    | tail _ hx' => have := ih x hx'; simp only [bsizeL]; omega

theorem bsizeP_mem : ∀ (d : List (List Nat × Bencode)) (p : List Nat × Bencode),
    p ∈ d → bsize p.2 ≤ bsizeP d := by
  intro d
  induction d with
  | nil => intro p hp; cases hp
  | cons q r ih =>
    intro p hp
    cases hp with
    | head => simp only [bsizeP]; omega
    | tail _ hp' => have := ih p hp'; simp only [bsizeP]; omega

/-- Induction principle for `Bencode` giving hypotheses for the members of
lists and for the values of dictionary pairs. -/
theorem Bencode.ind (P : Bencode → Prop)
    (hi : ∀ i, P (.int i)) (hs : ∀ s, P (.str s))
    (hl : ∀ l, (∀ x ∈ l, P x) → P (.list l))
    (hd : ∀ d, (∀ p ∈ d, P p.2) → P (.dict d)) : ∀ v, P v := by
  have H : ∀ n v, bsize v ≤ n → P v := by
    intro n
    induction n with
    | zero =>
      intro v hv
      have := bsize_pos v
      omega
    | succ n ih =>
      intro v hv
      cases v with
      | int i => exact hi i
      | str s => exact hs s
      | list l =>
        refine hl l (fun x hx => ih x ?_)
        have h1 := bsizeL_mem l x hx
        simp [bsize] at hv
        omega
      | dict d =>
        refine hd d (fun p hp => ih p.2 ?_)
        have h1 := bsizeP_mem d p hp
        simp [bsize] at hv
        omega
  exact fun v => H (bsize v) v (Nat.le_refl _)

/- Boolean equality on bencode values, giving decidable equality for the
nested inductive type. -/
mutual
def beqB : Bencode → Bencode → Bool
  | .int i, .int j => i == j
  | .str s, .str t => s == t
  | .list l, .list m => beqL l m
  | .dict d, .dict e => beqP d e
  | _, _ => false
def beqL : List Bencode → List Bencode → Bool
  | [], [] => true
  | x :: xs, y :: ys => beqB x y && beqL xs ys
  | _, _ => false
def beqP : List (List Nat × Bencode) → List (List Nat × Bencode) → Bool
  | [], [] => true
  | p :: ps, q :: qs => p.1 == q.1 && beqB p.2 q.2 && beqP ps qs
  | _, _ => false
end

theorem beqB_iff : ∀ a b : Bencode, beqB a b = true ↔ a = b := by
  intro a
  induction a using Bencode.ind with
  | hi i =>
    intro b
    cases b <;> simp [beqB]
  | hs s =>
    intro b
    cases b <;> simp [beqB]
  | hl l ihl =>
    intro b
    cases b with
    | int i => simp [beqB]
    | str s => simp [beqB]
    | dict d => simp [beqB]
    | list m =>
      simp only [beqB, Bencode.list.injEq]
      induction l generalizing m with
      | nil => cases m <;> simp [beqL]
      | cons x xs ih =>
        cases m with
        | nil => simp [beqL]
        | cons y ys =>
          have hx := ihl x (List.mem_cons_self _ _) y
          have hxs := ih (fun z hz => ihl z (List.mem_cons_of_mem _ hz)) ys
          simp [beqL, hx, hxs]
  | hd d ihd =>
    intro b
    cases b with
    | int i => simp [beqB]
    | str s => simp [beqB]
    | list m => simp [beqB]
    | dict e =>
      simp only [beqB, Bencode.dict.injEq]
      induction d generalizing e with
      | nil => cases e <;> simp [beqP]
      | cons p ps ih =>
        cases e with
        | nil => simp [beqP]
        | cons q qs =>
          have hp := ihd p (List.mem_cons_self _ _) q.2
          have hps := ih (fun z hz => ihd z (List.mem_cons_of_mem _ hz)) qs
          constructor
          · intro h
            simp only [beqP, Bool.and_eq_true, beq_iff_eq] at h
            obtain ⟨⟨h1, h2⟩, h3⟩ := h
            have : p = q := Prod.ext h1 (hp.mp h2)
            simp [this, hps.mp h3]
          · intro h
            cases h
            simp [beqP, hp.mpr rfl, hps.mpr rfl]

instance : DecidableEq Bencode := fun a b => decidable_of_iff _ (beqB_iff a b)

theorem keyLe_refl : ∀ a : List Nat, keyLe a a = true := by
  intro a
  induction a with
  | nil => rfl
  | cons x r ih => simp [keyLe, ih]

theorem keyLe_total : ∀ a b : List Nat, keyLe a b = true ∨ keyLe b a = true := by
  intro a
  induction a with
  | nil => intro b; left; rfl
  | cons x r ih =>
    intro b
    cases b with
    | nil => right; rfl
    | cons y s =>
      rcases Nat.lt_trichotomy x y with h | h | h
      · left; simp [keyLe, h]
      · cases h
        rcases ih s with h2 | h2
        · left; simp [keyLe, h2]
        · right; simp [keyLe, h2]
      · right; simp [keyLe, h]

theorem keyLe_antisymm : ∀ a b : List Nat, keyLe a b = true → keyLe b a = true → a = b := by
  intro a
  induction a with
  | nil =>
    intro b _ h2
    cases b with
    | nil => rfl
    | cons y s => simp [keyLe] at h2
  | cons x r ih =>
    intro b h1 h2
    cases b with
    | nil => simp [keyLe] at h1
    | cons y s =>
      simp only [keyLe, Bool.or_eq_true, Bool.and_eq_true, decide_eq_true_eq] at h1 h2
      rcases h1 with h1 | ⟨hxy, h1⟩
      · rcases h2 with h2 | ⟨hyx, _⟩ <;> omega
      · rcases h2 with h2 | ⟨_, h2⟩
        · omega
        · cases hxy
          rw [ih s h1 h2]

theorem keyLe_trans : ∀ a b c : List Nat,
    keyLe a b = true → keyLe b c = true → keyLe a c = true := by
  intro a
  induction a with
  | nil => intro b c _ _; rfl
  | cons x r ih =>
    intro b c h1 h2
    cases b with
    | nil => simp [keyLe] at h1
    | cons y s =>
      cases c with
      | nil => simp [keyLe] at h2
      | cons z t =>
        simp only [keyLe, Bool.or_eq_true, Bool.and_eq_true, decide_eq_true_eq] at h1 h2 ⊢
        rcases h1 with h1 | ⟨hxy, h1⟩
        · rcases h2 with h2 | ⟨hyz, _⟩
          · left; omega
          · left; omega
        · rcases h2 with h2 | ⟨hyz, h2⟩
          · left; omega
          · right; exact ⟨by omega, ih s t h1 h2⟩

/-- Insert a key-value pair into a key-sorted pair list (insertion sort
step); only the key is compared, so it is polymorphic in the value. -/
def insertPair {α : Type} (p : List Nat × α) : List (List Nat × α) → List (List Nat × α)
  | [] => [p]
  | q :: r => if keyLe p.1 q.1 then p :: q :: r else q :: insertPair p r

/-- Stable insertion sort of key-value pairs by raw byte value of the key:
the order in which Go (and the bencode library) serialises the entries of
a map. -/
def sortPairs {α : Type} : List (List Nat × α) → List (List Nat × α)
  | [] => []
  | p :: r => insertPair p (sortPairs r)

/-- Adjacent-pairs sortedness of a pair list by key. -/
def keysSorted {α : Type} : List (List Nat × α) → Bool
  | [] => true
  | [_] => true
  | p :: q :: r => keyLe p.1 q.1 && keysSorted (q :: r)

theorem insertPair_perm {α : Type} (p : List Nat × α) :
    ∀ l : List (List Nat × α), (insertPair p l).Perm (p :: l) := by
  intro l
  induction l with
  | nil => simp [insertPair]
  | cons q r ih =>
    by_cases h : keyLe p.1 q.1 = true
    · simp [insertPair, h]
    · simp only [insertPair, h, if_false, Bool.false_eq_true]
      exact (ih.cons q).trans (List.Perm.swap p q r)

theorem sortPairs_perm {α : Type} :
    ∀ l : List (List Nat × α), (sortPairs l).Perm l := by
  intro l
  induction l with
  | nil => simp [sortPairs]
  | cons p r ih =>
    exact (insertPair_perm p (sortPairs r)).trans (ih.cons p)

theorem keysSorted_cons {α : Type} (p : List Nat × α) (l : List (List Nat × α))
    (hl : keysSorted l = true) (hp : ∀ q ∈ l, keyLe p.1 q.1 = true) :
    keysSorted (p :: l) = true := by
  cases l with
  | nil => rfl
  | cons q r =>
    simp only [keysSorted, Bool.and_eq_true]
    exact ⟨hp q (List.mem_cons_self _ _), hl⟩

theorem keysSorted_tail {α : Type} (p : List Nat × α) (l : List (List Nat × α))
    (h : keysSorted (p :: l) = true) : keysSorted l = true := by
  cases l with
  | nil => rfl
  | cons q r =>
    simp only [keysSorted, Bool.and_eq_true] at h
    exact h.2

theorem keysSorted_head_le {α : Type} (p : List Nat × α) (l : List (List Nat × α))
    (h : keysSorted (p :: l) = true) : ∀ q ∈ l, keyLe p.1 q.1 = true := by
  induction l generalizing p with
  | nil => intro q hq; cases hq
  | cons q r ih =>
    intro x hx
    simp only [keysSorted, Bool.and_eq_true] at h
    cases hx with
    | head => exact h.1
    | tail _ hx' => exact keyLe_trans _ _ _ h.1 (ih q h.2 x hx')

theorem insertPair_sorted {α : Type} (p : List Nat × α) :
    ∀ l : List (List Nat × α), keysSorted l = true →
      keysSorted (insertPair p l) = true := by
  intro l
  induction l with
  | nil => intro _; rfl
  | cons q r ih =>
    intro hl
    by_cases h : keyLe p.1 q.1 = true
    · simp only [insertPair, h, if_true]
      refine keysSorted_cons p (q :: r) hl ?_
      intro x hx
      cases hx with
      | head => exact h
      | tail _ hx' => exact keyLe_trans _ _ _ h (keysSorted_head_le q r hl x hx')
    · simp only [insertPair, h, if_false, Bool.false_eq_true]
      have hqp : keyLe q.1 p.1 = true := by
        rcases keyLe_total p.1 q.1 with h2 | h2
        · exact absurd h2 h
        · exact h2
      refine keysSorted_cons q (insertPair p r) (ih (keysSorted_tail q r hl)) ?_
      intro x hx
      have hx2 : x ∈ p :: r := (insertPair_perm p r).mem_iff.mp hx
      cases hx2 with
      | head => exact hqp
      | tail _ hx' => exact keysSorted_head_le q r hl x hx'

theorem sortPairs_sorted {α : Type} :
    ∀ l : List (List Nat × α), keysSorted (sortPairs l) = true := by
  intro l
  induction l with
  | nil => rfl
  | cons p r ih => exact insertPair_sorted p (sortPairs r) ih

theorem sortPairs_of_sorted {α : Type} :
    ∀ l : List (List Nat × α), keysSorted l = true → sortPairs l = l := by
  intro l
  induction l with
  | nil => intro _; rfl
  | cons p r ih =>
    intro h
    have hr := keysSorted_tail p r h
    simp only [sortPairs, ih hr]
    cases r with
    | nil => rfl
    | cons q s =>
      simp only [keysSorted, Bool.and_eq_true] at h
      simp [insertPair, h.1]

theorem sorted_perm_nodupKeys_eq {α : Type} :
    ∀ l₁ l₂ : List (List Nat × α), keysSorted l₁ = true → keysSorted l₂ = true →
      l₁.Perm l₂ → (l₁.map Prod.fst).Nodup → l₁ = l₂ := by
  intro l₁
  induction l₁ with
  | nil =>
    intro l₂ _ _ hperm _
    exact (List.Perm.nil_eq hperm).symm ▸ rfl
  | cons p t₁ ih =>
    intro l₂ h₁ h₂ hperm hnd
    cases l₂ with
    | nil => exact absurd hperm.symm (by simp)
    | cons q t₂ =>
      have hpq : p = q := by
        have hpmem : p ∈ q :: t₂ := hperm.mem_iff.mp (List.mem_cons_self _ _)
        have hqmem : q ∈ p :: t₁ := hperm.mem_iff.mpr (List.mem_cons_self _ _)
        cases hpmem with
        | head => rfl
        | tail _ hp' =>
          cases hqmem with
          | head => rfl
          | tail _ hq' =>
            have h1 : keyLe p.1 q.1 = true := keysSorted_head_le p t₁ h₁ q hq'
            have h2 : keyLe q.1 p.1 = true := keysSorted_head_le q t₂ h₂ p hp'
            have hk : p.1 = q.1 := by
              have := keyLe_antisymm p.1 q.1 h1 h2
              exact this
            simp only [List.map_cons, List.nodup_cons] at hnd
            exact absurd (hk ▸ List.mem_map_of_mem Prod.fst hq') hnd.1
      cases hpq
      have htperm : t₁.Perm t₂ := hperm.cons_inv
      have : t₁ = t₂ := by
        refine ih t₂ (keysSorted_tail p t₁ h₁) (keysSorted_tail p t₂ h₂) htperm ?_
        simp only [List.map_cons, List.nodup_cons] at hnd
        exact hnd.2
      rw [this]

theorem foldl_base10 : ∀ (l : List Nat) (a : Nat),
    l.foldl (fun x d => 10 * x + d) a = a * 10 ^ l.length + Nat.ofDigits 10 l.reverse := by
  intro l
  induction l with
  | nil => intro a; simp [Nat.ofDigits]
  | cons d t ih =>
    intro a
    simp only [List.foldl_cons, List.reverse_cons, List.length_cons, ih (10 * a + d),
      Nat.ofDigits_append, Nat.ofDigits_singleton, List.length_reverse]
    ring

theorem natVal_reverse_digits (n : Nat) : natVal ((Nat.digits 10 n).reverse) = n := by
  unfold natVal
  rw [foldl_base10, List.reverse_reverse, Nat.ofDigits_digits]
  simp

theorem foldl_map48 : ∀ (l : List Nat) (a : Nat),
    (l.map (· + 48)).foldl (fun x c => 10 * x + (c - 48)) a
      = l.foldl (fun x d => 10 * x + d) a := by
  intro l
  induction l with
  | nil => intro a; rfl
  | cons d t ih =>
    intro a
    simp only [List.map_cons, List.foldl_cons, Nat.add_sub_cancel, ih]

theorem digitsVal_asciiDigits (n : Nat) : digitsVal (asciiDigits n) = n := by
  unfold asciiDigits digitsVal
  by_cases h : n = 0
  · subst h
    simp
  · simp only [h, if_false]
    rw [show ((Nat.digits 10 n).map (· + 48)).reverse
          = ((Nat.digits 10 n).reverse).map (· + 48) from (List.map_reverse ..).symm]
    rw [foldl_map48]
    exact natVal_reverse_digits n

theorem asciiDigits_are_digits (n : Nat) : ∀ c ∈ asciiDigits n, 48 ≤ c ∧ c ≤ 57 := by
  unfold asciiDigits
  by_cases h : n = 0
  · subst h; intro c hc; simp at hc; omega
  · simp only [h, if_false]
    intro c hc
    rw [List.mem_reverse] at hc
    obtain ⟨d, hd, rfl⟩ := List.mem_map.mp hc
    have := Nat.digits_lt_base (by omega) hd
    omega

theorem asciiDigits_ne_nil (n : Nat) : asciiDigits n ≠ [] := by
  unfold asciiDigits
  by_cases h : n = 0
  · simp [h]
  · simp only [h, if_false]
    simp only [ne_eq, List.reverse_eq_nil_iff, List.map_eq_nil_iff]
    exact Nat.digits_ne_nil_iff_ne_zero.mpr h

theorem asciiDigits_48_cons (n : Nat) (ds : List Nat) :
    asciiDigits n = 48 :: ds → n = 0 ∧ ds = [] := by
  intro h
  by_cases hn : n = 0
  · subst hn
    simp only [asciiDigits, if_true] at h
    refine ⟨rfl, ?_⟩
    have := h.symm
    simp only [List.cons.injEq] at this
    exact this.2
  · exfalso
    have hLne : Nat.digits 10 n ≠ [] := Nat.digits_ne_nil_iff_ne_zero.mpr hn
    have hMne : (Nat.digits 10 n).map (· + 48) ≠ [] := by
      simp only [ne_eq, List.map_eq_nil_iff]
      exact hLne
    have hhead : ((Nat.digits 10 n).map (· + 48)).reverse.head? = some 48 := by
      simp only [asciiDigits, hn, if_false] at h
      rw [h]
      rfl
    rw [List.head?_reverse] at hhead
    have hlast : ((Nat.digits 10 n).map (· + 48)).getLast hMne = 48 := by
      rw [List.getLast_eq_iff_getLast?_eq_some]
      exact hhead
    rw [List.getLast_map] at hlast
    have := Nat.getLast_digit_ne_zero 10 hn
    omega

theorem asciiDigits_digitsVal (ds : List Nat) (hne : ds ≠ [])
    (hdig : ∀ c ∈ ds, 48 ≤ c ∧ c ≤ 57)
    (hlz : ∀ ds', ds = 48 :: ds' → ds' = []) :
    asciiDigits (digitsVal ds) = ds := by
  by_cases h48 : ds = [48]
  · subst h48
    have : digitsVal [48] = 0 := by unfold digitsVal; simp
    rw [this]
    rfl
  · have hmap : (ds.map (· - 48)).map (· + 48) = ds := by
      rw [List.map_map]
      have : ∀ c ∈ ds, ((· + 48) ∘ (· - 48)) c = id c := by
        intro c hc
        have := hdig c hc
        simp only [Function.comp_apply, id]
        omega
      rw [List.map_congr_left this, List.map_id]
    have hval : digitsVal ds = Nat.ofDigits 10 (ds.map (· - 48)).reverse := by
      unfold digitsVal
      rw [← hmap]
      rw [foldl_map48, foldl_base10]
      simp [hmap]
    have hlt : ∀ l ∈ (ds.map (· - 48)).reverse, l < 10 := by
      intro l hl
      rw [List.mem_reverse] at hl
      obtain ⟨c, hc, rfl⟩ := List.mem_map.mp hl
      have := hdig c hc
      omega
    have hgl : ∀ h : (ds.map (· - 48)).reverse ≠ [],
        ((ds.map (· - 48)).reverse).getLast h ≠ 0 := by
      intro h
      rw [List.getLast_reverse]
      cases ds with
      | nil => exact absurd rfl hne
      | cons c t =>
        simp only [List.map_cons, List.head_cons]
        have hc := hdig c (List.mem_cons_self _ _)
        intro hzero
        have hc48 : c = 48 := by omega
        subst hc48
        exact h48 (by rw [hlz t rfl])
    have hdig10 : Nat.digits 10 (digitsVal ds) = (ds.map (· - 48)).reverse := by
      rw [hval]
      exact Nat.digits_ofDigits 10 (by omega) _ hlt hgl
    have hdvne : digitsVal ds ≠ 0 := by
      intro h0
      rw [h0] at hdig10
      cases ds with
      | nil => exact absurd rfl hne
      | cons c t => simp [Nat.digits_zero] at hdig10
    unfold asciiDigits
    simp only [hdvne, if_false, hdig10]
    rw [show ((ds.map (· - 48)).reverse.map (· + 48))
          = ((ds.map (· - 48)).map (· + 48)).reverse from List.map_reverse ..]
    rw [hmap, List.reverse_reverse]

/-- Parse a non-empty leading run of decimal digits with no leading zero
(except the literal `0` itself), per spec section 4.1. -/
def parseDigits (b : List Nat) : Option (Nat × List Nat) :=
  let p := readDigits b
  if p.1 = [] then none
  else if p.1.head? = some 48 ∧ p.1 ≠ [48] then none
  else some (digitsVal p.1, p.2)

/-- Parse the body of an integer (after the leading `i`): optional minus
sign, digits, terminating `e`; `-0` is malformed. -/
def parseIntBody (r : List Nat) : Option (Int × List Nat) :=
  match r with
  | 45 :: r₂ =>
    match parseDigits r₂ with
    | none => none
    | some (n, rest) =>
      if n = 0 then none
      else
        match rest with
        | 101 :: rest₂ => some (-(n : Int), rest₂)
        | _ => none
  | _ =>
    match parseDigits r with
    | none => none
    | some (n, rest) =>
      match rest with
      | 101 :: rest₂ => some ((n : Int), rest₂)
      | _ => none

/-- Parse a byte string `<length>:<bytes>` from the start of the input. -/
def parseStrFrom (b : List Nat) : Option (List Nat × List Nat) :=
  match parseDigits b with
  | none => none
  | some (n, rest) =>
    match rest with
    | 58 :: r₂ => if n ≤ r₂.length then some (r₂.take n, r₂.drop n) else none
    | _ => none

/- The recursive-descent bencode decoder of spec section 4.1, modelled with
explicit fuel (any fuel exceeding the input length suffices, see below).
Dictionaries keep their pairs in stream order. -/
mutual
def decodeVal : Nat → List Nat → Option (Bencode × List Nat)
  | 0, _ => none
  | _ + 1, [] => none
  | f + 1, c :: r =>
    if c = 105 then
      match parseIntBody r with
      | none => none
      | some (i, rest) => some (.int i, rest)
    else if c = 108 then
      match decodeItems f r with
      | none => none
      | some (l, rest) => some (.list l, rest)
    else if c = 100 then
      match decodePairs f r with
      | none => none
      | some (d, rest) => some (.dict d, rest)
    else
      match parseStrFrom (c :: r) with
      | none => none
      | some (s, rest) => some (.str s, rest)
def decodeItems : Nat → List Nat → Option (List Bencode × List Nat)
  | 0, _ => none
  | f + 1, b =>
    match b with
    | 101 :: r => some ([], r)
    | _ =>
      match decodeVal f b with
      | none => none
      | some (v, rest) =>
        match decodeItems f rest with
        | none => none
        | some (l, rest₂) => some (v :: l, rest₂)
def decodePairs : Nat → List Nat → Option (List (List Nat × Bencode) × List Nat)
  | 0, _ => none
  | f + 1, b =>
    match b with
    | 101 :: r => some ([], r)
    | _ =>
      match parseStrFrom b with
      | none => none
      | some (k, rest) =>
        match decodeVal f rest with
        | none => none
        | some (v, rest₂) =>
          match decodePairs f rest₂ with
          | none => none
          | some (d, rest₃) => some ((k, v) :: d, rest₃)
end

/-- Decode a byte buffer from its start (spec section 4.1 `Decode`). -/
def decode (b : List Nat) : Option (Bencode × List Nat) :=
  decodeVal (b.length + 1) b

/-- Byte rendering of an integer value (without the `i`/`e` frame). -/
def encInt (i : Int) : List Nat :=
  if i < 0 then 45 :: asciiDigits i.natAbs else asciiDigits i.natAbs

/-- Byte rendering of a byte string: `<length>:<bytes>`. -/
def strBytes (s : List Nat) : List Nat := asciiDigits s.length ++ 58 :: s

/-- Concatenate already-encoded dictionary entries. -/
def joinEnc : List (List Nat × List Nat) → List Nat
  | [] => []
  | p :: r => strBytes p.1 ++ p.2 ++ joinEnc r

/- The canonical encoder (spec section 4.1 `Encode`): dictionary entries
are emitted sorted ascending by raw key bytes regardless of input order.
The values of a dictionary are encoded first and the resulting entries are
then sorted by key, which yields the same bytes because the sort compares
only keys. -/
mutual
def encode : Bencode → List Nat
  | .int i => 105 :: (encInt i ++ [101])
  | .str s => strBytes s
  | .list l => 108 :: (encodeList l ++ [101])
  | .dict d => 100 :: (joinEnc (sortPairs (encPairs d)) ++ [101])
def encodeList : List Bencode → List Nat
  | [] => []
  | v :: r => encode v ++ encodeList r
def encPairs : List (List Nat × Bencode) → List (List Nat × List Nat)
  | [] => []
  | p :: r => (p.1, encode p.2) :: encPairs r
end

/- Canonical form of a value: every dictionary recursively sorted by key
(stable).  This is what decoding a canonical encoding gives back. -/
mutual
def canon : Bencode → Bencode
  | .int i => .int i
  | .str s => .str s
  | .list l => .list (canonList l)
  | .dict d => .dict (sortPairs (canonPairs d))
def canonList : List Bencode → List Bencode
  | [] => []
  | v :: r => canon v :: canonList r
def canonPairs : List (List Nat × Bencode) → List (List Nat × Bencode)
  | [] => []
  | p :: r => (p.1, canon p.2) :: canonPairs r
end

theorem readDigits_split : ∀ b : List Nat, (readDigits b).1 ++ (readDigits b).2 = b := by
  intro b
  induction b with
  | nil => rfl
  | cons c r ih =>
    by_cases h : isDigitByte c = true
    · simp only [readDigits, h, if_true, List.cons_append, ih]
    · simp only [readDigits, h, if_false, Bool.false_eq_true, List.nil_append]

theorem readDigits_all : ∀ b : List Nat, ∀ c ∈ (readDigits b).1, isDigitByte c = true := by
  intro b
  induction b with
  | nil => intro c hc; cases hc
  | cons c r ih =>
    by_cases h : isDigitByte c = true
    · simp only [readDigits, h, if_true]
      intro x hx
      cases hx with
      | head => exact h
      | tail _ hx' => exact ih x hx'
    · simp only [readDigits, h, if_false, Bool.false_eq_true]
      intro x hx
      cases hx

theorem readDigits_append (ds rest : List Nat)
    (hds : ∀ c ∈ ds, isDigitByte c = true)
    (hrest : ∀ c r, rest = c :: r → isDigitByte c = false) :
    readDigits (ds ++ rest) = (ds, rest) := by
  induction ds with
  | nil =>
    cases rest with
    | nil => rfl
    | cons c r =>
      simp only [List.nil_append, readDigits, hrest c r rfl, if_false, Bool.false_eq_true]
  | cons d t ih =>
    have hd := hds d (List.mem_cons_self _ _)
    simp only [List.cons_append, readDigits, hd, if_true]
    simp only [List.append_eq]
    rw [ih (fun c hc => hds c (List.mem_cons_of_mem _ hc))]

theorem parseDigits_asciiDigits (n : Nat) (rest : List Nat)
    (hrest : ∀ c r, rest = c :: r → isDigitByte c = false) :
    parseDigits (asciiDigits n ++ rest) = some (n, rest) := by
  unfold parseDigits
  have hrd : readDigits (asciiDigits n ++ rest) = (asciiDigits n, rest) := by
    refine readDigits_append _ _ ?_ hrest
    intro c hc
    have := asciiDigits_are_digits n c hc
    simp only [isDigitByte, Bool.and_eq_true, decide_eq_true_eq]
    omega
  simp only [hrd]
  have h1 : asciiDigits n ≠ [] := asciiDigits_ne_nil n
  simp only [h1, if_false]
  have h2 : ¬((asciiDigits n).head? = some 48 ∧ asciiDigits n ≠ [48]) := by
    rintro ⟨hh, hne⟩
    cases hds : asciiDigits n with
    | nil => exact h1 hds
    | cons c t =>
      rw [hds] at hh
      simp only [List.head?_cons, Option.some.injEq] at hh
      cases hh
      have := asciiDigits_48_cons n t hds
      rw [this.2] at hds
      exact hne hds
  simp only [h2, if_false, digitsVal_asciiDigits]

theorem parseDigits_sound (b : List Nat) (n : Nat) (rest : List Nat)
    (h : parseDigits b = some (n, rest)) : b = asciiDigits n ++ rest := by
  unfold parseDigits at h
  by_cases h1 : (readDigits b).1 = []
  · simp [h1] at h
  · simp only [h1, if_false] at h
    by_cases h2 : (readDigits b).1.head? = some 48 ∧ (readDigits b).1 ≠ [48]
    · simp [h2] at h
    · simp only [h2, if_false, Option.some.injEq, Prod.mk.injEq] at h
      obtain ⟨hn, hrest⟩ := h
      have hAD : asciiDigits (digitsVal (readDigits b).1) = (readDigits b).1 := by
        refine asciiDigits_digitsVal _ h1 ?_ ?_
        · intro c hc
          have := readDigits_all b c hc
          simp only [isDigitByte, Bool.and_eq_true, decide_eq_true_eq] at this
          omega
        · intro ds' hds'
          by_contra hne
          exact h2 ⟨by rw [hds']; rfl, by rw [hds']; intro hx; cases hx; exact hne rfl⟩
      rw [← hn, hAD, ← hrest]
      exact (readDigits_split b).symm

theorem parseStrFrom_encode (s : List Nat) (rest : List Nat) :
    parseStrFrom (strBytes s ++ rest) = some (s, rest) := by
  unfold parseStrFrom strBytes
  have hb : (asciiDigits s.length ++ 58 :: s) ++ rest
      = asciiDigits s.length ++ 58 :: (s ++ rest) := by
    simp [List.append_assoc]
  rw [hb, parseDigits_asciiDigits s.length (58 :: (s ++ rest))
    (by intro c r hc; cases hc; rfl)]
  have hlen : s.length ≤ (s ++ rest).length := by
    simp [List.length_append]
  simp only [hlen, if_true]
  rw [List.take_left, List.drop_left]

theorem parseStrFrom_sound (b : List Nat) (s rest : List Nat)
    (h : parseStrFrom b = some (s, rest)) : strBytes s ++ rest = b := by
  unfold parseStrFrom at h
  cases hpd : parseDigits b with
  | none => rw [hpd] at h; cases h
  | some p =>
    rw [hpd] at h
    obtain ⟨n, rest₁⟩ := p
    simp only at h
    split at h
    · rename_i r₂
      split at h
      · rename_i hlen
        simp only [Option.some.injEq, Prod.mk.injEq] at h
        obtain ⟨hs, hr⟩ := h
        have hb := parseDigits_sound b n (58 :: r₂) hpd
        have hlens : s.length = n := by
          rw [← hs, List.length_take]
          omega
        rw [hb]
        unfold strBytes
        rw [hlens, ← hs, ← hr]
        simp [List.take_append_drop]
      · cases h
    · cases h

theorem parseIntBody_encode (i : Int) (rest : List Nat) :
    parseIntBody (encInt i ++ 101 :: rest) = some (i, rest) := by
  by_cases hneg : i < 0
  · have hlz : isDigitByte 101 = false := rfl
    have hne : i.natAbs ≠ 0 := by omega
    simp only [encInt, hneg, if_true, List.cons_append, parseIntBody]
    rw [parseDigits_asciiDigits i.natAbs (101 :: rest) (by intro c r hc; cases hc; rfl)]
    simp only [hne, if_false]
    have : -(i.natAbs : Int) = i := by omega
    rw [this]
  · simp only [encInt, hneg, if_false]
    cases hA : asciiDigits i.natAbs with
    | nil => exact absurd hA (asciiDigits_ne_nil _)
    | cons c t =>
      have hc : 48 ≤ c ∧ c ≤ 57 := by
        refine asciiDigits_are_digits i.natAbs c ?_
        rw [hA]
        exact List.mem_cons_self _ _
      have hb : (c :: t) ++ 101 :: rest = c :: (t ++ 101 :: rest) := rfl
      rw [hb]
      unfold parseIntBody
      split
      · rename_i r₂ heq
        simp only [List.cons.injEq] at heq
        omega
      · have hback : c :: (t ++ 101 :: rest) = asciiDigits i.natAbs ++ 101 :: rest := by
          rw [hA]
          rfl
        rw [hback,
          parseDigits_asciiDigits i.natAbs (101 :: rest) (by intro c' r hc'; cases hc'; rfl)]
        have habs : (i.natAbs : Int) = i := by omega
        simp [habs]

theorem parseIntBody_sound (r : List Nat) (i : Int) (rest : List Nat)
    (h : parseIntBody r = some (i, rest)) : encInt i ++ 101 :: rest = r := by
  unfold parseIntBody at h
  split at h
  · rename_i r₂
    cases hpd : parseDigits r₂ with
    | none => rw [hpd] at h; cases h
    | some p =>
      rw [hpd] at h
      obtain ⟨n, rest₁⟩ := p
      simp only at h
      split at h
      · cases h
      · rename_i hn
        split at h
        · rename_i rest₂
          simp only [Option.some.injEq, Prod.mk.injEq] at h
          obtain ⟨hi, hr⟩ := h
          have hr₂ := parseDigits_sound r₂ n (101 :: rest₂) hpd
          have hlt : i < 0 := by omega
          have habs : i.natAbs = n := by omega
          simp only [encInt, hlt, if_true, habs, List.cons_append, List.cons.injEq,
            true_and]
          rw [hr₂, ← hr]
        · cases h
  · cases hpd : parseDigits r with
    | none => rw [hpd] at h; cases h
    | some p =>
      rw [hpd] at h
      obtain ⟨n, rest₁⟩ := p
      simp only at h
      split at h
      · rename_i rest₂
        simp only [Option.some.injEq, Prod.mk.injEq] at h
        obtain ⟨hi, hr⟩ := h
        have hrr := parseDigits_sound r n (101 :: rest₂) hpd
        have habs : i.natAbs = n := by omega
        simp only [encInt, show ¬i < 0 by omega, if_false, habs]
        rw [hrr, ← hr]
      · cases h

theorem encode_cons (v : Bencode) :
    ∃ c t, encode v = c :: t ∧ (c = 105 ∨ c = 108 ∨ c = 100 ∨ (48 ≤ c ∧ c ≤ 57)) := by
  cases v with
  | int i => exact ⟨105, _, rfl, Or.inl rfl⟩
  | str s =>
    cases hA : asciiDigits s.length with
    | nil => exact absurd hA (asciiDigits_ne_nil _)
    | cons c t =>
      have hc : 48 ≤ c ∧ c ≤ 57 := by
        refine asciiDigits_are_digits s.length c ?_
        rw [hA]
        exact List.mem_cons_self _ _
      refine ⟨c, t ++ 58 :: s, ?_, Or.inr (Or.inr (Or.inr hc))⟩
      simp only [encode, strBytes, hA, List.cons_append]
  | list l => exact ⟨108, _, rfl, Or.inr (Or.inl rfl)⟩
  | dict d => exact ⟨100, _, rfl, Or.inr (Or.inr (Or.inl rfl))⟩

theorem encode_ne_nil (v : Bencode) : encode v ≠ [] := by
  obtain ⟨c, t, heq, _⟩ := encode_cons v
  rw [heq]
  intro h
  cases h

theorem encode_length_pos (v : Bencode) : 1 ≤ (encode v).length := by
  obtain ⟨c, t, heq, _⟩ := encode_cons v
  rw [heq]
  simp

theorem insertPair_map {α β : Type} (f : α → β) (p : List Nat × α) :
    ∀ l : List (List Nat × α),
      insertPair (p.1, f p.2) (l.map (fun q => (q.1, f q.2)))
        = (insertPair p l).map (fun q => (q.1, f q.2)) := by
  intro l
  induction l with
  | nil => rfl
  | cons q r ih =>
    by_cases h : keyLe p.1 q.1 = true
    · simp [insertPair, h]
    · simp only [List.map_cons, insertPair, h, if_false, Bool.false_eq_true, List.map_cons, ih]

theorem sortPairs_map {α β : Type} (f : α → β) :
    ∀ l : List (List Nat × α),
      sortPairs (l.map (fun q => (q.1, f q.2))) = (sortPairs l).map (fun q => (q.1, f q.2)) := by
  intro l
  induction l with
  | nil => rfl
  | cons p r ih => simp only [List.map_cons, sortPairs, ih, insertPair_map]

theorem keysSorted_map {α β : Type} (f : α → β) :
    ∀ l : List (List Nat × α),
      keysSorted (l.map (fun q => (q.1, f q.2))) = keysSorted l := by
  intro l
  induction l with
  | nil => rfl
  | cons p r ih =>
    cases r with
    | nil => rfl
    | cons q s =>
      simp only [List.map_cons, keysSorted] at ih ⊢
      rw [ih]

theorem encPairs_eq_map : ∀ d, encPairs d = d.map (fun q => (q.1, encode q.2)) := by
  intro d
  induction d with
  | nil => rfl
  | cons p r ih => simp only [encPairs, List.map_cons, ih]

theorem canonPairs_eq_map : ∀ d, canonPairs d = d.map (fun q => (q.1, canon q.2)) := by
  intro d
  induction d with
  | nil => rfl
  | cons p r ih => simp only [canonPairs, List.map_cons, ih]

theorem canonList_eq_map : ∀ l, canonList l = l.map canon := by
  intro l
  induction l with
  | nil => rfl
  | cons v r ih => simp only [canonList, List.map_cons, ih]

theorem encode_dict_sorted (d : List (List Nat × Bencode)) :
    encode (.dict d) = 100 :: (joinEnc (encPairs (sortPairs d)) ++ [101]) := by
  simp only [encode, encPairs_eq_map, sortPairs_map]

theorem decodeItems_encode (l : List Bencode)
    (ih : ∀ x ∈ l, ∀ (f : Nat) (rest : List Nat), (encode x).length < f →
      decodeVal f (encode x ++ rest) = some (canon x, rest)) :
    ∀ (f : Nat) (rest : List Nat), (encodeList l).length + 1 < f →
      decodeItems f (encodeList l ++ 101 :: rest) = some (canonList l, rest) := by
  induction l with
  | nil =>
    intro f rest hf
    cases f with
    | zero => omega
    | succ f' => rfl
  | cons x xs ihx =>
    intro f rest hf
    cases f with
    | zero => omega
    | succ f' =>
      have hxlen : 1 ≤ (encode x).length := encode_length_pos x
      have hlen : (encodeList (x :: xs)).length
          = (encode x).length + (encodeList xs).length := by
        simp [encodeList, List.length_append]
      have hb : encodeList (x :: xs) ++ 101 :: rest
          = encode x ++ (encodeList xs ++ 101 :: rest) := by
        simp [encodeList, List.append_assoc]
      rw [hb]
      simp only [decodeItems]
      split
      · rename_i r heq
        obtain ⟨c, t, hct, hcd⟩ := encode_cons x
        rw [hct] at heq
        simp only [List.cons_append, List.cons.injEq] at heq
        omega
      · have h1 := ih x (List.mem_cons_self _ _) f' (encodeList xs ++ 101 :: rest) (by omega)
        have h2 := ihx (fun y hy => ih y (List.mem_cons_of_mem _ hy)) f' rest (by omega)
        simp [h1, h2, canonList]

theorem decodePairs_encode (m : List (List Nat × Bencode))
    (ih : ∀ p ∈ m, ∀ (f : Nat) (rest : List Nat), (encode p.2).length < f →
      decodeVal f (encode p.2 ++ rest) = some (canon p.2, rest)) :
    ∀ (f : Nat) (rest : List Nat), (joinEnc (encPairs m)).length + 1 < f →
      decodePairs f (joinEnc (encPairs m) ++ 101 :: rest) = some (canonPairs m, rest) := by
  induction m with
  | nil =>
    intro f rest hf
    cases f with
    | zero => omega
    | succ f' => rfl
  | cons p ps ihp =>
    intro f rest hf
    cases f with
    | zero => omega
    | succ f' =>
      have hvlen : 1 ≤ (encode p.2).length := encode_length_pos p.2
      have hklen : 1 ≤ (asciiDigits p.1.length).length := by
        cases hA : asciiDigits p.1.length with
        | nil => exact absurd hA (asciiDigits_ne_nil _)
        | cons c t => simp
      have hlen : (joinEnc (encPairs (p :: ps))).length
          = (strBytes p.1).length + (encode p.2).length + (joinEnc (encPairs ps)).length := by
        simp only [encPairs, joinEnc, List.length_append]
      have hslen : (strBytes p.1).length = (asciiDigits p.1.length).length + 1 + p.1.length := by
        simp only [strBytes, List.length_append, List.length_cons]
        omega
      have hb : joinEnc (encPairs (p :: ps)) ++ 101 :: rest
          = strBytes p.1 ++ (encode p.2 ++ (joinEnc (encPairs ps) ++ 101 :: rest)) := by
        simp only [encPairs, joinEnc, List.append_assoc]
      rw [hb]
      simp only [decodePairs]
      split
      · rename_i r heq
        cases hA : asciiDigits p.1.length with
        | nil => exact absurd hA (asciiDigits_ne_nil _)
        | cons c t =>
          have hc : 48 ≤ c ∧ c ≤ 57 := by
            refine asciiDigits_are_digits p.1.length c ?_
            rw [hA]
            exact List.mem_cons_self _ _
          rw [show strBytes p.1 = c :: (t ++ 58 :: p.1) by rw [strBytes, hA]; rfl] at heq
          simp only [List.cons_append, List.cons.injEq] at heq
          omega
      · have hstr : parseStrFrom
            (strBytes p.1 ++ (encode p.2 ++ (joinEnc (encPairs ps) ++ 101 :: rest)))
            = some (p.1, encode p.2 ++ (joinEnc (encPairs ps) ++ 101 :: rest)) :=
          parseStrFrom_encode p.1 _
        have h1 := ih p (List.mem_cons_self _ _) f'
          (joinEnc (encPairs ps) ++ 101 :: rest) (by omega)
        have h2 := ihp (fun q hq => ih q (List.mem_cons_of_mem _ hq)) f' rest (by omega)
        simp [hstr, h1, h2, canonPairs]

theorem decodeVal_encode : ∀ v : Bencode, ∀ (f : Nat) (rest : List Nat),
    (encode v).length < f →
    decodeVal f (encode v ++ rest) = some (canon v, rest) := by
  intro v
  induction v using Bencode.ind with
  | hi i =>
    intro f rest hf
    cases f with
    | zero =>
      simp only [Nat.not_lt_zero] at hf
    | succ f' =>
      have hb : encode (.int i) ++ rest = 105 :: (encInt i ++ 101 :: rest) := by
        simp [encode, List.append_assoc]
      rw [hb]
      simp [decodeVal, parseIntBody_encode, canon]
  | hs s =>
    intro f rest hf
    cases f with
    | zero =>
      simp only [Nat.not_lt_zero] at hf
    | succ f' =>
      cases hA : asciiDigits s.length with
      | nil => exact absurd hA (asciiDigits_ne_nil _)
      | cons c t =>
        have hc : 48 ≤ c ∧ c ≤ 57 := by
          refine asciiDigits_are_digits s.length c ?_
          rw [hA]
          exact List.mem_cons_self _ _
        have hb : encode (.str s) ++ rest = c :: (t ++ 58 :: (s ++ rest)) := by
          simp only [encode, strBytes, hA]
          simp [List.append_assoc]
        rw [hb]
        have h105 : ¬c = 105 := by omega
        have h108 : ¬c = 108 := by omega
        have h100 : ¬c = 100 := by omega
        simp only [decodeVal, h105, h108, h100, if_false]
        have hback : c :: (t ++ 58 :: (s ++ rest)) = strBytes s ++ rest := by
          simp only [strBytes, hA]
          simp [List.append_assoc]
        rw [hback, parseStrFrom_encode]
        simp [canon]
  | hl l ihl =>
    intro f rest hf
    cases f with
    | zero =>
      simp only [Nat.not_lt_zero] at hf
    | succ f' =>
      have hb : encode (.list l) ++ rest = 108 :: (encodeList l ++ 101 :: rest) := by
        simp [encode, List.append_assoc]
      have hlen : (encode (.list l)).length = (encodeList l).length + 2 := by
        simp [encode, List.length_append]
      rw [hb]
      have hit := decodeItems_encode l ihl f' rest (by omega)
      simp [decodeVal, hit, canon]
  | hd d ihd =>
    intro f rest hf
    cases f with
    | zero =>
      simp only [Nat.not_lt_zero] at hf
    | succ f' =>
      have hb : encode (.dict d) ++ rest
          = 100 :: (joinEnc (encPairs (sortPairs d)) ++ 101 :: rest) := by
        rw [encode_dict_sorted]
        simp [List.append_assoc]
      have hlen : (encode (.dict d)).length
          = (joinEnc (encPairs (sortPairs d))).length + 2 := by
        rw [encode_dict_sorted]
        simp [List.length_append]
      rw [hb]
      have hmem : ∀ p ∈ sortPairs d, ∀ (g : Nat) (r : List Nat),
          (encode p.2).length < g → decodeVal g (encode p.2 ++ r) = some (canon p.2, r) :=
        fun p hp => ihd p ((sortPairs_perm d).mem_iff.mp hp)
      have hpr := decodePairs_encode (sortPairs d) hmem f' rest (by omega)
      have hcomm : canonPairs (sortPairs d) = sortPairs (canonPairs d) := by
        rw [canonPairs_eq_map, canonPairs_eq_map, sortPairs_map]
      simp [decodeVal, hpr, canon, hcomm]

theorem decode_encode (v : Bencode) : decode (encode v) = some (canon v, []) := by
  unfold decode
  have h := decodeVal_encode v ((encode v).length + 1) [] (by omega)
  rw [List.append_nil] at h
  exact h

/- Canonical-form test: every dictionary in the value is sorted by key. -/
mutual
def sortedB : Bencode → Bool
  | .int _ => true
  | .str _ => true
  | .list l => sortedLB l
  | .dict d => keysSorted d && sortedPB d
def sortedLB : List Bencode → Bool
  | [] => true
  | v :: r => sortedB v && sortedLB r
def sortedPB : List (List Nat × Bencode) → Bool
  | [] => true
  | p :: r => sortedB p.2 && sortedPB r
end

theorem decodeVal_nil : ∀ f, decodeVal f [] = none := by
  intro f
  cases f with
  | zero => rfl
  | succ f' => rfl

theorem decodeItems_nil : ∀ f, decodeItems f [] = none := by
  intro f
  cases f with
  | zero => rfl
  | succ f' => simp [decodeItems, decodeVal_nil]

theorem decodePairs_nil : ∀ f, decodePairs f [] = none := by
  intro f
  cases f with
  | zero => rfl
  | succ f' =>
    have h : parseStrFrom [] = none := rfl
    simp [decodePairs, h]

theorem decode_sound_mutual : ∀ f : Nat,
    (∀ b v rest, decodeVal f b = some (v, rest) → sortedB v = true →
      encode v ++ rest = b) ∧
    (∀ b l rest, decodeItems f b = some (l, rest) → sortedLB l = true →
      encodeList l ++ 101 :: rest = b) ∧
    (∀ b d rest, decodePairs f b = some (d, rest) → keysSorted d = true →
      sortedPB d = true → joinEnc (encPairs d) ++ 101 :: rest = b) := by
  intro f
  induction f with
  | zero =>
    refine ⟨?_, ?_, ?_⟩
    · intro b v rest h
      simp [decodeVal] at h
    · intro b l rest h
      simp [decodeItems] at h
    · intro b d rest h
      simp [decodePairs] at h
  | succ f ih =>
    obtain ⟨ihv, ihi, ihp⟩ := ih
    refine ⟨?_, ?_, ?_⟩
    · intro b v rest h hs
      cases b with
      | nil => simp [decodeVal] at h
      | cons c r =>
        simp only [decodeVal] at h
        by_cases hc5 : c = 105
        · subst hc5
          rw [if_pos rfl] at h
          cases hpi : parseIntBody r with
          | none => rw [hpi] at h; cases h
          | some p =>
            obtain ⟨i, rest₁⟩ := p
            rw [hpi] at h
            simp only [Option.some.injEq, Prod.mk.injEq] at h
            obtain ⟨hv, hr⟩ := h
            subst hv
            subst hr
            have hsound := parseIntBody_sound r i rest₁ hpi
            simp only [encode, List.cons_append, List.append_assoc, List.cons.injEq]
            exact ⟨trivial, hsound⟩
        · rw [if_neg hc5] at h
          by_cases hc8 : c = 108
          · subst hc8
            rw [if_pos rfl] at h
            cases hdi : decodeItems f r with
            | none => rw [hdi] at h; cases h
            | some p =>
              obtain ⟨l, rest₁⟩ := p
              rw [hdi] at h
              simp only [Option.some.injEq, Prod.mk.injEq] at h
              obtain ⟨hv, hr⟩ := h
              subst hv
              subst hr
              simp only [sortedB] at hs
              have hsound := ihi r l rest₁ hdi hs
              simp only [encode, List.cons_append, List.append_assoc, List.cons.injEq]
              exact ⟨trivial, hsound⟩
          · rw [if_neg hc8] at h
            by_cases hc0 : c = 100
            · subst hc0
              rw [if_pos rfl] at h
              cases hdp : decodePairs f r with
              | none => rw [hdp] at h; cases h
              | some p =>
                obtain ⟨d, rest₁⟩ := p
                rw [hdp] at h
                simp only [Option.some.injEq, Prod.mk.injEq] at h
                obtain ⟨hv, hr⟩ := h
                subst hv
                subst hr
                simp only [sortedB, Bool.and_eq_true] at hs
                have hjoin := ihp r d rest₁ hdp hs.1 hs.2
                have hsp : sortPairs (encPairs d) = encPairs d := by
                  refine sortPairs_of_sorted _ ?_
                  rw [encPairs_eq_map, keysSorted_map]
                  exact hs.1
                simp only [encode, hsp, List.cons_append, List.append_assoc,
                  List.cons.injEq]
                exact ⟨trivial, hjoin⟩
            · rw [if_neg hc0] at h
              cases hps : parseStrFrom (c :: r) with
              | none => rw [hps] at h; cases h
              | some p =>
                obtain ⟨s, rest₁⟩ := p
                rw [hps] at h
                simp only [Option.some.injEq, Prod.mk.injEq] at h
                obtain ⟨hv, hr⟩ := h
                subst hv
                subst hr
                have hsound := parseStrFrom_sound (c :: r) s rest₁ hps
                simpa only [encode] using hsound
    · intro b l rest h hs
      cases b with
      | nil =>
        rw [decodeItems_nil] at h
        cases h
      | cons c r =>
        by_cases hc : c = 101
        · subst hc
          simp only [decodeItems] at h
          simp only [Option.some.injEq, Prod.mk.injEq] at h
          obtain ⟨hl, hr⟩ := h
          subst hl
          subst hr
          simp [encodeList]
        · simp only [decodeItems] at h
          split at h
          · rename_i heq
            simp only [List.cons.injEq] at heq
            exact absurd heq.1 hc
          · cases hdv : decodeVal f (c :: r) with
            | none => rw [hdv] at h; cases h
            | some p =>
              obtain ⟨v, rest₁⟩ := p
              rw [hdv] at h
              simp only at h
              cases hdi : decodeItems f rest₁ with
              | none => rw [hdi] at h; cases h
              | some q =>
                obtain ⟨l', rest₂⟩ := q
                rw [hdi] at h
                simp only [Option.some.injEq, Prod.mk.injEq] at h
                obtain ⟨hl, hr⟩ := h
                subst hl
                subst hr
                simp only [sortedLB, Bool.and_eq_true] at hs
                have h1 := ihv (c :: r) v rest₁ hdv hs.1
                have h2 := ihi rest₁ l' rest₂ hdi hs.2
                simp only [encodeList, List.append_assoc, h2, h1]
    · intro b d rest h hk hs
      cases b with
      | nil =>
        rw [decodePairs_nil] at h
        cases h
      | cons c r =>
        by_cases hc : c = 101
        · subst hc
          simp only [decodePairs] at h
          simp only [Option.some.injEq, Prod.mk.injEq] at h
          obtain ⟨hd, hr⟩ := h
          subst hd
          subst hr
          simp [encPairs, joinEnc]
        · simp only [decodePairs] at h
          split at h
          · rename_i heq
            simp only [List.cons.injEq] at heq
            exact absurd heq.1 hc
          · cases hps : parseStrFrom (c :: r) with
            | none => rw [hps] at h; cases h
            | some p =>
              obtain ⟨k, rest₁⟩ := p
              rw [hps] at h
              simp only at h
              cases hdv : decodeVal f rest₁ with
              | none => rw [hdv] at h; cases h
              | some q =>
                obtain ⟨v, rest₂⟩ := q
                rw [hdv] at h
                simp only at h
                cases hdp : decodePairs f rest₂ with
                | none => rw [hdp] at h; cases h
                | some w =>
                  obtain ⟨d', rest₃⟩ := w
                  rw [hdp] at h
                  simp only [Option.some.injEq, Prod.mk.injEq] at h
                  obtain ⟨hd, hr⟩ := h
                  subst hd
                  subst hr
                  simp only [sortedPB, Bool.and_eq_true] at hs
                  have hk' : keysSorted d' = true := keysSorted_tail _ _ hk
                  have h1 := parseStrFrom_sound (c :: r) k rest₁ hps
                  have h2 := ihv rest₁ v rest₂ hdv hs.1
                  have h3 := ihp rest₂ d' rest₃ hdp hk' hs.2
                  simp only [encPairs, joinEnc, List.append_assoc, h3, h2, h1]

theorem encode_decode (b : List Nat) (v : Bencode)
    (h : decode b = some (v, [])) (hs : sortedB v = true) : encode v = b := by
  have h2 := (decode_sound_mutual (b.length + 1)).1 b v [] h hs
  rwa [List.append_nil] at h2

theorem encodeList_canonList (l : List Bencode)
    (ih : ∀ x ∈ l, encode (canon x) = encode x) :
    encodeList (canonList l) = encodeList l := by
  induction l with
  | nil => rfl
  | cons x xs ihx =>
    simp only [canonList, encodeList, ih x (List.mem_cons_self _ _),
      ihx (fun y hy => ih y (List.mem_cons_of_mem _ hy))]

theorem encPairs_canonPairs (d : List (List Nat × Bencode))
    (ih : ∀ p ∈ d, encode (canon p.2) = encode p.2) :
    encPairs (canonPairs d) = encPairs d := by
  induction d with
  | nil => rfl
  | cons p r ihr =>
    simp only [canonPairs, encPairs, ih p (List.mem_cons_self _ _),
      ihr (fun q hq => ih q (List.mem_cons_of_mem _ hq))]

theorem encode_canon : ∀ v : Bencode, encode (canon v) = encode v := by
  intro v
  induction v using Bencode.ind with
  | hi i => rfl
  | hs s => rfl
  | hl l ihl => simp only [canon, encode, encodeList_canonList l ihl]
  | hd d ihd =>
    simp only [canon, encode]
    have key : sortPairs (encPairs (sortPairs (canonPairs d))) = sortPairs (encPairs d) := by
      rw [encPairs_eq_map, ← sortPairs_map,
        sortPairs_of_sorted _ (sortPairs_sorted _), ← encPairs_eq_map,
        encPairs_canonPairs d ihd]
    rw [key]

/-- Lowercase hexadecimal digit byte for a value below 16 (as produced by
Go's encoding/hex and the `%x` format verb). -/
def hexDigit (n : Nat) : Nat := if n < 10 then 48 + n else 87 + n

/-- Lowercase hexadecimal rendering of a byte string. -/
def hexEncode (bs : List Nat) : List Nat :=
  (bs.map (fun b => [hexDigit (b / 16), hexDigit (b % 16)])).flatten

/-- Assign a value to a key in an association list, replacing an existing
entry: the effect of a Go map assignment. -/
def setKey (l : List (List Nat × Bencode)) (k : List Nat) (v : Bencode) :
    List (List Nat × Bencode) :=
  match l with
  | [] => [(k, v)]
  | p :: r => if p.1 = k then (p.1, v) :: r else p :: setKey r k v

/-- Collapse duplicate keys of a decoded dictionary, later entries winning:
the key set of the Go map the bencode library decodes a dictionary into. -/
def dedupKeys (l : List (List Nat × Bencode)) : List (List Nat × Bencode) :=
  l.foldl (fun acc p => setKey acc p.1 p.2) []

/-- First value stored under a key (after `dedupKeys` keys are unique). -/
def lookupKey (l : List (List Nat × Bencode)) (k : List Nat) : Option Bencode :=
  match l with
  | [] => none
  | p :: r => if p.1 = k then some p.2 else lookupKey r k

/- Shape of a bencode value tree after decoding into `interface \x7b\x7d` in Go:
dictionaries become maps, so duplicate keys collapse (last wins) at every
level.  Key order is irrelevant afterwards because re-encoding sorts. -/
mutual
def goVal : Bencode → Bencode
  | .int i => .int i
  | .str s => .str s
  | .list l => .list (goList l)
  | .dict d => .dict (dedupKeys (goPairs d))
def goList : List Bencode → List Bencode
  | [] => []
  | v :: r => goVal v :: goList r
def goPairs : List (List Nat × Bencode) → List (List Nat × Bencode)
  | [] => []
  | p :: r => (p.1, goVal p.2) :: goPairs r
end

def infoKey : List Nat := [105, 110, 102, 111]
def announceKey : List Nat := [97, 110, 110, 111, 117, 110, 99, 101]
def commentKey : List Nat := [99, 111, 109, 109, 101, 110, 116]
def createdByKey : List Nat := [99, 114, 101, 97, 116, 101, 100, 32, 98, 121]
def creationDateKey : List Nat := [99, 114, 101, 97, 116, 105, 111, 110, 32, 100, 97, 116, 101]
def urlListKey : List Nat := [117, 114, 108, 45, 108, 105, 115, 116]
def nameKey : List Nat := [110, 97, 109, 101]
def lengthKey : List Nat := [108, 101, 110, 103, 116, 104]
def filesKey : List Nat := [102, 105, 108, 101, 115]
def pieceLengthKey : List Nat := [112, 105, 101, 99, 101, 32, 108, 101, 110, 103, 116, 104]
def piecesKey : List Nat := [112, 105, 101, 99, 101, 115]
def pathKey : List Nat := [112, 97, 116, 104]

/-- Model of `calculateInfoHash` (main.go lines 149 to 168): decode the
whole file into a Go map, take the `info` entry, re-encode it with the
canonical (sorted-key) encoder and hex-encode its hash.  The SHA-1
function from crypto/sha1 is the abstract parameter `h`. -/
def calculateInfoHash (h : List Nat → List Nat) (torrentData : List Nat) :
    Option (List Nat) :=
  match decode torrentData with
  | some (.dict pairs, _) =>
    match lookupKey (dedupKeys (goPairs pairs)) infoKey with
    | some info => some (hexEncode (h (encode info)))
    | none => none
  | _ => none

/-- File entry of a torrent record (struct `File`, main.go lines 37 to 40). -/
structure File where
  path : List (List Nat)
  length : Int
deriving DecidableEq

/-- Parsed torrent record (struct `TorrentInfo`, main.go lines 24 to 34).
`time.Time` is modelled as a Unix timestamp. -/
structure TorrentInfo where
  name : List Nat
  infoHash : List Nat
  size : Int
  files : List File
  webSeeds : List (List Nat)
  createdBy : List Nat
  createdDate : Int
  comment : List Nat
  filePath : List Nat
deriving DecidableEq

/-- Entry of the `files` list (struct `FileDict`, main.go lines 63 to 66). -/
structure FileDict where
  length : Int
  path : List (List Nat)
deriving DecidableEq

/-- The `info` dictionary (struct `InfoDict`, main.go lines 54 to 60).
Fields absent from the input are left at their zero value. -/
structure InfoDict where
  name : List Nat
  length : Int
  files : List FileDict
  pieceLength : Int
  pieces : List Nat
deriving DecidableEq

/-- Decoded shape of a torrent file (struct `TorrentMetaInfo`, main.go
lines 43 to 51).  The `announce-list` field is omitted: it decodes into an
untyped value and can neither fail nor influence the record.  `urlList`
holds the raw decoded value (`none` when the key is absent). -/
structure TorrentMetaInfo where
  announce : List Nat
  comment : List Nat
  createdBy : List Nat
  creationDate : Int
  info : InfoDict
  urlList : Option Bencode
deriving DecidableEq

/-- String-typed struct field: absent keys give the zero value `""`, a
value of any other bencode type is a decode error. -/
def getStrField (m : List (List Nat × Bencode)) (k : List Nat) : Option (List Nat) :=
  match lookupKey m k with
  | none => some []
  | some (.str s) => some s
  | some _ => none

/-- Integer-typed struct field: absent keys give the zero value `0`. -/
def getIntField (m : List (List Nat × Bencode)) (k : List Nat) : Option Int :=
  match lookupKey m k with
  | none => some 0
  | some (.int i) => some i
  | some _ => none

/-- Decode a bencode list into a Go `[]string`: every element must be a
byte string. -/
def decodeStrList : List Bencode → Option (List (List Nat))
  | [] => some []
  | .str s :: r => (decodeStrList r).map (fun t => s :: t)
  | _ => none

/-- Decode one entry of the `files` list into a `FileDict`. -/
def decodeFileDict : Bencode → Option FileDict
  | .dict d => do
    let m := dedupKeys d
    let len ← getIntField m lengthKey
    let p ← match lookupKey m pathKey with
      | none => some []
      | some (.list xs) => decodeStrList xs
      | some _ => none
    pure ⟨len, p⟩
  | _ => none

def decodeFileList : List Bencode → Option (List FileDict)
  | [] => some []
  | x :: r => do
    let f ← decodeFileDict x
    let t ← decodeFileList r
    pure (f :: t)

/-- Decode the `info` dictionary into an `InfoDict`. -/
def decodeInfoDict (d : List (List Nat × Bencode)) : Option InfoDict := do
  let m := dedupKeys d
  let nm ← getStrField m nameKey
  let len ← getIntField m lengthKey
  let fs ← match lookupKey m filesKey with
    | none => some []
    | some (.list xs) => decodeFileList xs
    | some _ => none
  let pl ← getIntField m pieceLengthKey
  let pc ← getStrField m piecesKey
  pure ⟨nm, len, fs, pl, pc⟩

/-- Model of `bencode.DecodeBytes(data, &metaInfo)` (main.go line 178):
decode the byte buffer and fill the struct field by field; the top level
must be a dictionary; missing keys leave zero values; an `info` value that
is not a dictionary, or an ill-typed field, is an error. -/
def decodeMetaInfo (data : List Nat) : Option TorrentMetaInfo :=
  match decode data with
  | some (.dict pairs, _) => do
    let m := dedupKeys pairs
    let ann ← getStrField m announceKey
    let com ← getStrField m commentKey
    let cby ← getStrField m createdByKey
    let cdate ← getIntField m creationDateKey
    let inf ← match lookupKey m infoKey with
      | none => some ⟨[], 0, [], 0, []⟩
      | some (.dict di) => decodeInfoDict di
      | some _ => none
    let ul : Option Bencode := (lookupKey m urlListKey).map goVal
    pure ⟨ann, com, cby, cdate, inf, ul⟩
  | _ => none

/-- Model of `extractWebSeeds` (main.go lines 233 to 257).  The input is
the decoded `url-list` value (`none` when absent, matching the nil
interface).  The `[]string` case of the Go type switch is unreachable for
values produced by the decoder and is not modelled. -/
def extractWebSeeds : Option Bencode → List (List Nat)
  | none => []
  | some (.str s) => [s]
  | some (.list l) =>
    l.foldl (fun acc x =>
      match x with
      | .str s => acc ++ [s]
      | _ => acc) []
  | some _ => []

/-- Model of `parseTorrentFile` (main.go lines 171 to 230).  `h` abstracts
SHA-1, `now` the scan-time clock value `time.Now()`, `filePath` the path
the file was read from and `data` the file's bytes.  `none` is the error
return.  The fallback hash `data[:20]` (line 187) slices the read buffer
returned by ioutil.ReadFile: that buffer's capacity is at least
`bytes.MinRead = 512` and its bytes past the data are zero, so for short
files the slice yields the data zero-padded to 20 bytes instead of
panicking. -/
def parseTorrentFile (h : List Nat → List Nat) (now : Int) (filePath : List Nat)
    (data : List Nat) : Option TorrentInfo :=
  match decodeMetaInfo data with
  | none => none
  | some mi =>
    let infoHash : List Nat :=
      match calculateInfoHash h data with
      | some ih => ih
      | none => hexEncode ((data ++ List.replicate 20 0).take 20)
    let sizeFiles : Int × List File :=
      if mi.info.length > 0 then
        (mi.info.length, [⟨[mi.info.name], mi.info.length⟩])
      else
        ((mi.info.files.map FileDict.length).foldl (· + ·) 0,
         mi.info.files.map (fun f => ⟨f.path, f.length⟩))
    some { name := mi.info.name
           infoHash := infoHash
           size := sizeFiles.1
           files := sizeFiles.2
           webSeeds := extractWebSeeds mi.urlList
           createdBy := mi.createdBy
           createdDate := if mi.creationDate > 0 then mi.creationDate else now
           comment := mi.comment
           filePath := filePath }

/-- Model of `SearchTorrents` (main.go lines 265 to 280): empty query
returns the whole catalog; otherwise a case-insensitive substring filter
over the record names, in catalog order. -/
def SearchTorrents (torrents : List TorrentInfo) (query : List Nat) : List TorrentInfo :=
  if query = [] then torrents
  else
    let q := lowerBytes query
    torrents.foldl
      (fun results t => if containsSub (lowerBytes t.name) q then results ++ [t] else results)
      []

/-- A directory entry as returned by ioutil.ReadDir, together with the
bytes the file holds. -/
structure DirEntry where
  name : List Nat
  isDir : Bool
  data : List Nat
deriving DecidableEq

def torrentSuffix : List Nat := [46, 116, 111, 114, 114, 101, 110, 116]

/-- Candidate filter of the scan loop (main.go line 133): regular files
whose lower-cased name ends in `.torrent`. -/
def isTorrentFile (e : DirEntry) : Bool :=
  !e.isDir && torrentSuffix.isSuffixOf (lowerBytes e.name)

/-- The scan loop of `LoadTorrents` (main.go lines 132 to 142): parse each
candidate, append successes, skip failures. -/
def loadLoop (h : List Nat → List Nat) (now : Int) (dir : List Nat) :
    List DirEntry → List TorrentInfo → List TorrentInfo
  | [], acc => acc
  | e :: r, acc =>
    if isTorrentFile e then
      match parseTorrentFile h now (dir ++ 47 :: e.name) e.data with
      | some t => loadLoop h now dir r (acc ++ [t])
      | none => loadLoop h now dir r acc
    else loadLoop h now dir r acc

/-- Model of `LoadTorrents` (main.go lines 124 to 146).  `listing` is the
result of ioutil.ReadDir: `none` when the directory cannot be listed (the
error return), otherwise its entries. -/
def LoadTorrents (h : List Nat → List Nat) (now : Int) (dir : List Nat)
    (listing : Option (List DirEntry)) : Option (List TorrentInfo) :=
  match listing with
  | none => none
  | some entries => some (loadLoop h now dir entries [])

/-- Successive values taken by the live field `tm.torrents` while the scan
loop runs, starting from the value after the reset on main.go line 130. -/
def stateLoop (h : List Nat → List Nat) (now : Int) (dir : List Nat) :
    List DirEntry → List TorrentInfo → List (List TorrentInfo)
  | [], _ => []
  | e :: r, acc =>
    if isTorrentFile e then
      match parseTorrentFile h now (dir ++ 47 :: e.name) e.data with
      | some t => (acc ++ [t]) :: stateLoop h now dir r (acc ++ [t])
      | none => stateLoop h now dir r acc
    else stateLoop h now dir r acc

/-- Every value the visible collection `tm.torrents` takes during one run
of `LoadTorrents` (main.go lines 124 to 146): the pre-refresh value, then
the empty slice assigned at line 130, then each prefix produced by the
appends at line 140.  A concurrent reader of the manager observes one of
these values. -/
def loadStates (h : List Nat → List Nat) (now : Int) (dir : List Nat)
    (old : List TorrentInfo) (entries : List DirEntry) : List (List TorrentInfo) :=
  old :: [] :: stateLoop h now dir entries []

theorem hexEncode_lower (bs : List Nat) (hb : ∀ b ∈ bs, b < 256) :
    ∀ c ∈ hexEncode bs, (48 ≤ c ∧ c ≤ 57) ∨ (97 ≤ c ∧ c ≤ 102) := by
  induction bs with
  | nil => intro c hc; cases hc
  | cons b r ih =>
    intro c hc
    simp only [hexEncode, List.map_cons, List.flatten_cons] at hc
    have hbb := hb b (List.mem_cons_self _ _)
    rcases List.mem_append.mp hc with hc1 | hc2
    · have hd : c = hexDigit (b / 16) ∨ c = hexDigit (b % 16) := by
        simpa using hc1
      have h16a : b / 16 < 16 := by omega
      have h16b : b % 16 < 16 := by omega
      rcases hd with rfl | rfl <;> · unfold hexDigit; split <;> omega
    · exact ih (fun x hx => hb x (List.mem_cons_of_mem _ hx)) c hc2

theorem loadLoop_eq (h : List Nat → List Nat) (now : Int) (dir : List Nat) :
    ∀ (entries : List DirEntry) (acc : List TorrentInfo),
      loadLoop h now dir entries acc
        = acc ++ entries.filterMap (fun e =>
            if isTorrentFile e then parseTorrentFile h now (dir ++ 47 :: e.name) e.data
            else none) := by
  intro entries
  induction entries with
  | nil => intro acc; simp [loadLoop]
  | cons e r ih =>
    intro acc
    by_cases he : isTorrentFile e
    · simp only [loadLoop, he, if_true, List.filterMap_cons]
      cases hp : parseTorrentFile h now (dir ++ 47 :: e.name) e.data with
      | none => simp [ih acc]
      | some t => simp [ih (acc ++ [t])]
    · simp only [loadLoop, he, if_false, List.filterMap_cons, Bool.false_eq_true]
      simp [ih acc]

theorem foldl_filter_append {α : Type} (p : α → Bool) :
    ∀ (ts acc : List α),
      ts.foldl (fun r t => if p t then r ++ [t] else r) acc = acc ++ ts.filter p := by
  intro ts
  induction ts with
  | nil => intro acc; simp
  | cons t r ih =>
    intro acc
    by_cases hp : p t
    · simp [List.foldl_cons, hp, ih]
    · simp only [List.foldl_cons, hp, if_false, Bool.false_eq_true, List.filter_cons]
      simp [hp, ih]

/-- The byte-string payload of a bencode value, when it is one. -/
def strVal : Bencode → Option (List Nat)
  | .str s => some s
  | _ => none

theorem webSeedLoop_eq : ∀ (l : List Bencode) (acc : List (List Nat)),
    l.foldl (fun acc x =>
      match x with
      | Bencode.str s => acc ++ [s]
      | _ => acc) acc = acc ++ l.filterMap strVal := by
  intro l
  induction l with
  | nil => intro acc; simp
  | cons x r ih =>
    intro acc
    cases x <;> simp [List.foldl_cons, List.filterMap_cons, strVal, ih]

/-- The value stored under a key of the top-level dictionary of a torrent
file, through the Go map the file decodes into; `none` when the file does
not decode to a dictionary, `some none` when the key is absent. -/
def topLookup (data : List Nat) (k : List Nat) : Option (Option Bencode) :=
  match decode data with
  | some (.dict pairs, _) => some (lookupKey (dedupKeys (goPairs pairs)) k)
  | _ => none

/-- Claim C4: for every directory that can be listed the scan succeeds;
a candidate file whose parse fails is merely excluded from the resulting
collection (the scan yields exactly the successfully parsed candidates, in
directory order), while a directory whose listing fails aborts the scan
with an error. -/
theorem claim_C4 (h : List Nat → List Nat) (now : Int) (dir : List Nat) :
    LoadTorrents h now dir none = none ∧
    ∀ entries, LoadTorrents h now dir (some entries)
      = some (entries.filterMap (fun e =>
          if isTorrentFile e then parseTorrentFile h now (dir ++ 47 :: e.name) e.data
          else none)) := by
  refine ⟨rfl, fun entries => ?_⟩
  simp only [LoadTorrents, loadLoop_eq, List.nil_append]

/-- Claim C6: web seeds are normalized from the decoded `url-list` value:
absent gives the empty sequence, a byte string gives a one-element
sequence, a list gives its byte-string elements in order (non-strings
skipped silently), and any other shape gives the empty sequence. -/
theorem claim_C6 :
    extractWebSeeds none = [] ∧
    (∀ s, extractWebSeeds (some (.str s)) = [s]) ∧
    (∀ l, extractWebSeeds (some (.list l)) = l.filterMap strVal) ∧
    (∀ i, extractWebSeeds (some (.int i)) = []) ∧
    (∀ d, extractWebSeeds (some (.dict d)) = []) := by
  refine ⟨rfl, fun s => rfl, fun l => ?_, fun i => rfl, fun d => rfl⟩
  simp only [extractWebSeeds, webSeedLoop_eq, List.nil_append]

/-- Claim C7: searching with the empty term returns the whole catalog in
catalog order; a non-empty term returns exactly the records whose name
contains the term case-insensitively, and the result is always a sublist
of the catalog (order preserved). -/
theorem claim_C7 (ts : List TorrentInfo) (q : List Nat) :
    SearchTorrents ts [] = ts ∧
    (q ≠ [] → SearchTorrents ts q
      = ts.filter (fun t => containsSub (lowerBytes t.name) (lowerBytes q))) ∧
    (SearchTorrents ts q).Sublist ts := by
  refine ⟨rfl, fun hq => ?_, ?_⟩
  · simp only [SearchTorrents, hq, if_false]
    simp only [foldl_filter_append, List.nil_append]
  · by_cases hq : q = []
    · subst hq
      exact (List.Sublist.refl ts)
    · simp only [SearchTorrents, hq, if_false]
      simp only [foldl_filter_append, List.nil_append]
      exact List.filter_sublist ts

/-- Demonstration catalog record used by the C7 witness. -/
def movieRec : TorrentInfo :=
  ⟨[77, 111, 118, 105, 101, 46, 50, 48, 50, 51], [], 0, [], [], [], 0, [], []⟩

/-- Witness for claim C7 at the record named `Movie.2023` and the query
`movie`. -/
theorem claim_C7_witness :
    ([109, 111, 118, 105, 101] : List Nat) ≠ [] ∧
    SearchTorrents [movieRec] [109, 111, 118, 105, 101]
      = List.filter
          (fun t => containsSub (lowerBytes t.name) (lowerBytes [109, 111, 118, 105, 101]))
          [movieRec] :=
  ⟨by decide, (claim_C7 [movieRec] [109, 111, 118, 105, 101]).2.1 (by decide)⟩

/-- A stand-in for the abstract hash parameter in closed statements. -/
def zeroHash : List Nat → List Nat := fun _ => []

/-- The two-byte file `de`: a bencode dictionary with no entries.  It
decodes into the metadata struct (all fields zero) but info-hash
computation fails because there is no `info` key. -/
def deBytes : List Nat := [100, 101]

/-- Bytes of a minimal single-file torrent,
`d4:infod6:lengthi5e4:name5:a.txt12:piece lengthi5e6:pieces20:<20 bytes>ee`,
carrying no `creation date` key. -/
def t1Bytes : List Nat :=
  [100, 52, 58, 105, 110, 102, 111, 100, 54, 58, 108, 101, 110, 103, 116, 104,
   105, 53, 101, 52, 58, 110, 97, 109, 101, 53, 58, 97, 46, 116, 120, 116,
   49, 50, 58, 112, 105, 101, 99, 101, 32, 108, 101, 110, 103, 116, 104,
   105, 53, 101, 54, 58, 112, 105, 101, 99, 101, 115, 50, 48, 58,
   97, 97, 97, 97, 97, 97, 97, 97, 97, 97, 97, 97, 97, 97, 97, 97, 97, 97, 97, 97,
   101, 101]

/-- The metadata struct `t1Bytes` decodes to. -/
def t1Meta : TorrentMetaInfo :=
  ⟨[], [], [], 0,
   ⟨[97, 46, 116, 120, 116], 5, [], 5,
    [97, 97, 97, 97, 97, 97, 97, 97, 97, 97, 97, 97, 97, 97, 97, 97, 97, 97, 97, 97]⟩,
   none⟩

/-- The record `parseTorrentFile zeroHash 0 [] t1Bytes` builds. -/
def t1Rec : TorrentInfo :=
  ⟨[97, 46, 116, 120, 116], [], 5, [⟨[[97, 46, 116, 120, 116]], 5⟩], [], [], 0, [], []⟩

/-- Bytes of `d4:infod6:lengthi0e4:name1:aee`: the `info` dictionary
contains the `length` integer 0. -/
def zeroLenBytes : List Nat :=
  [100, 52, 58, 105, 110, 102, 111, 100, 54, 58, 108, 101, 110, 103, 116, 104,
   105, 48, 101, 52, 58, 110, 97, 109, 101, 49, 58, 97, 101, 101]

/-- Bytes of `d7:comment11:hello worlde`: a 25-byte file that decodes
into the metadata struct (only `comment` set) but carries no `info` key,
so info-hash computation fails while the fallback slice `data[:20]` stays
within the file's own bytes. -/
def commentBytes : List Nat :=
  [100, 55, 58, 99, 111, 109, 109, 101, 110, 116,
   49, 49, 58, 104, 101, 108, 108, 111, 32, 119, 111, 114, 108, 100, 101]

/-- The metadata struct `commentBytes` decodes to. -/
def commentMeta : TorrentMetaInfo :=
  ⟨[], [104, 101, 108, 108, 111, 32, 119, 111, 114, 108, 100], [], 0,
   ⟨[], 0, [], 0, []⟩, none⟩

/-- Bytes of `ie`: an empty integer literal, rejected by the decoder, so
the struct decode itself fails. -/
def badBytes : List Nat := [105, 101]

/-- Directory entry `c.torrent` holding the bytes of `commentBytes`. -/
def entryC : DirEntry :=
  ⟨[99, 46, 116, 111, 114, 114, 101, 110, 116], false, commentBytes⟩

/-- Counterexample to claim C2: for the file `d7:comment11:hello worlde`
the info-hash computation fails (no `info` key), yet the record is built
with the fallback hex of the file's first 20 bytes substituted for the
infoHash field, and a scan of a directory holding just this file keeps it
in the catalog — it is not dropped. -/
theorem claim_C2_counterexample :
    calculateInfoHash zeroHash commentBytes = none ∧
    (parseTorrentFile zeroHash 0 [] commentBytes).map TorrentInfo.infoHash
      = some (hexEncode (commentBytes.take 20)) ∧
    (LoadTorrents zeroHash 0 [] (some [entryC])).map List.length = some 1 := by
  exact ⟨rfl, rfl, rfl⟩

/-- Claim C2 amended: only a failure of the bencode decode into the
metadata struct fails the build (and the scan then drops the file, see
claim C4); a failure of the info-hash computation alone — `info` absent
or malformed in a file that still decodes — does not: the record is built
and kept, its infoHash field substituted by the fallback hex of the first
20 bytes of the zero-padded read buffer (main.go line 187). -/
theorem claim_C2_amended (h : List Nat → List Nat) (now : Int) (fp data : List Nat) :
    (decodeMetaInfo data = none → parseTorrentFile h now fp data = none) ∧
    (∀ mi, decodeMetaInfo data = some mi → calculateInfoHash h data = none →
      (parseTorrentFile h now fp data).map TorrentInfo.infoHash
        = some (hexEncode ((data ++ List.replicate 20 0).take 20))) := by
  constructor
  · intro hfailed
    simp only [parseTorrentFile, hfailed]
  · intro mi hmi hfail
    simp only [parseTorrentFile, hmi, hfail]
    rfl

/-- Witness for the amended claim C2: the undecodable file `ie` fails the
build, while `d7:comment11:hello worlde` (struct decode succeeds, hash
computation fails) yields a record carrying the fallback hash. -/
theorem claim_C2_witness :
    parseTorrentFile zeroHash 0 [] badBytes = none ∧
    (parseTorrentFile zeroHash 0 [] commentBytes).map TorrentInfo.infoHash
      = some (hexEncode ((commentBytes ++ List.replicate 20 0).take 20)) :=
  ⟨(claim_C2_amended zeroHash 0 [] badBytes).1 rfl,
   (claim_C2_amended zeroHash 0 [] commentBytes).2 commentMeta rfl rfl⟩

/-- Claim C8 is contradicted by the code: `t1Bytes` carries no
`creation date` key (its decoded field is the zero value 0), and the built
record's createdDate is whatever `time.Now()` returned at scan time — the
substitution on main.go line 211 that spec section 9 calls out; two scans
at different clock values disagree. -/
theorem claim_C8_codebug (h : List Nat → List Nat) (now : Int) (fp : List Nat) :
    topLookup t1Bytes creationDateKey = some none ∧
    (decodeMetaInfo t1Bytes).map TorrentMetaInfo.creationDate = some 0 ∧
    (parseTorrentFile h now fp t1Bytes).map TorrentInfo.createdDate = some now := by
  exact ⟨rfl, rfl, rfl⟩

/-- A record standing for the pre-refresh catalog contents. -/
def oldRec : TorrentInfo := ⟨[111, 108, 100], [], 0, [], [], [], 0, [], []⟩

/-- Directory entry `a.torrent` holding the bytes of `t1Bytes`. -/
def entryA : DirEntry :=
  ⟨[97, 46, 116, 111, 114, 114, 101, 110, 116], false, t1Bytes⟩

/-- Claim C9 is contradicted by the code: `LoadTorrents` clears and then
appends to the live `tm.torrents` field (main.go lines 130 and 140)
instead of building the new set aside and swapping once, so during a
refresh of a one-record catalog from a directory with one valid file the
visible collection takes the value `[]` — neither the (non-empty) old set
nor the (non-empty) new set. -/
theorem claim_C9_codebug :
    [] ∈ loadStates zeroHash 0 [] [oldRec] [entryA] ∧
    ([oldRec] : List TorrentInfo) ≠ [] ∧
    (LoadTorrents zeroHash 0 [] (some [entryA])).map List.isEmpty = some false := by
  refine ⟨?_, by decide, rfl⟩
  exact List.mem_cons_of_mem _ (List.mem_cons_self _ _)

/-- Claim C10's counterexample: at the two-byte input `de` the fallback's
output hex-encodes twenty bytes — the two input bytes and eighteen
zero-padding bytes of the read buffer that lie past the end of the input —
so it differs from the hex encoding of (the first 20 bytes of) the input
itself. -/
theorem claim_C10_counterexample :
    (parseTorrentFile zeroHash 0 [] deBytes).map TorrentInfo.infoHash
      = some (hexEncode (deBytes ++ List.replicate 18 0)) ∧
    hexEncode (deBytes ++ List.replicate 18 0) ≠ hexEncode (deBytes.take 20) := by
  exact ⟨rfl, by decide⟩

/-- Claim C10 amended: `parseTorrentFile` is total for inputs shorter than
20 bytes — ioutil.ReadFile's buffer capacity (at least bytes.MinRead =
512) keeps `data[:20]` in bounds — but the fallback then reads the zero
padding past the input's end: the stored infoHash is the hex encoding of
the input zero-extended to exactly 20 bytes. -/
theorem claim_C10_amended (h : List Nat → List Nat) (now : Int) (fp data : List Nat)
    (mi : TorrentMetaInfo) (hlen : data.length < 20)
    (hmi : decodeMetaInfo data = some mi)
    (hfail : calculateInfoHash h data = none) :
    (parseTorrentFile h now fp data).map TorrentInfo.infoHash
      = some (hexEncode (data ++ List.replicate (20 - data.length) 0)) := by
  have hpad : (data ++ List.replicate 20 0).take 20
      = data ++ List.replicate (20 - data.length) 0 := by
    rw [List.take_append_eq_append_take,
      List.take_of_length_le (by omega), List.take_replicate,
      Nat.min_eq_left (by omega)]
  simp only [parseTorrentFile, hmi, hfail, hpad]
  rfl

/-- Witness for the amended claim C10 at the two-byte input `de`. -/
theorem claim_C10_witness :
    (parseTorrentFile zeroHash 0 [] deBytes).map TorrentInfo.infoHash
      = some (hexEncode (deBytes ++ List.replicate (20 - deBytes.length) 0)) :=
  claim_C10_amended zeroHash 0 [] deBytes ⟨[], [], [], 0, ⟨[], 0, [], 0, []⟩, none⟩
    (by decide) rfl rfl

/-- Claim C5's counterexample: `zeroLenBytes` has an `info` dictionary
that does contain a top-level `length` integer (with value 0), yet the
built record holds zero File entries, not exactly one: the code tests
`Length > 0`, not the presence of the key. -/
theorem claim_C5_counterexample :
    decode zeroLenBytes
      = some (.dict [(infoKey, .dict [(lengthKey, .int 0), (nameKey, .str [97])])], []) ∧
    (parseTorrentFile zeroHash 0 [] zeroLenBytes).map
        (fun r => (r.files.length, r.size)) = some (0, 0) := by
  exact ⟨by decide, rfl⟩

/-- Claim C5 amended: for every successfully decoded torrent, if the
decoded `length` field is positive the record holds exactly one File
entry synthesized from the top-level name and length; otherwise (`length`
absent, zero or negative) the Files are taken from the `files` list in
order; in both cases totalSize is the sum of the constituent file
lengths. -/
theorem claim_C5_amended (h : List Nat → List Nat) (now : Int) (fp data : List Nat)
    (mi : TorrentMetaInfo) (r : TorrentInfo)
    (hmi : decodeMetaInfo data = some mi)
    (hr : parseTorrentFile h now fp data = some r) :
    (mi.info.length > 0 →
      r.files = [⟨[mi.info.name], mi.info.length⟩] ∧ r.size = mi.info.length) ∧
    (¬mi.info.length > 0 →
      r.files = mi.info.files.map (fun f => ⟨f.path, f.length⟩) ∧
      r.size = (mi.info.files.map FileDict.length).sum) ∧
    r.size = (r.files.map File.length).sum := by
  simp only [parseTorrentFile, hmi, Option.some.injEq] at hr
  by_cases hpos : mi.info.length > 0
  · simp only [hpos, if_true] at hr
    subst hr
    refine ⟨fun _ => ⟨rfl, rfl⟩, fun hneg => absurd hpos hneg, ?_⟩
    simp [List.sum_cons]
  · simp only [hpos, if_false] at hr
    subst hr
    refine ⟨fun hpos' => absurd hpos' hpos, fun _ => ⟨rfl, ?_⟩, ?_⟩
    · rw [List.sum_eq_foldl]
    · simp only [List.map_map]
      rw [List.sum_eq_foldl]
      rfl

/-- Witness for the amended claim C5 at the single-file torrent
`t1Bytes` (decoded length 5, one synthesized File entry). -/
theorem claim_C5_witness :
    (t1Meta.info.length > 0 →
      t1Rec.files = [⟨[t1Meta.info.name], t1Meta.info.length⟩] ∧
      t1Rec.size = t1Meta.info.length) ∧
    (¬t1Meta.info.length > 0 →
      t1Rec.files = t1Meta.info.files.map (fun f => ⟨f.path, f.length⟩) ∧
      t1Rec.size = (t1Meta.info.files.map FileDict.length).sum) ∧
    t1Rec.size = (t1Rec.files.map File.length).sum :=
  claim_C5_amended zeroHash 0 [] t1Bytes t1Meta t1Rec (by decide) (by decide)

/-- Claim C3: the codec round-trips.  Observational equality of values is
taken — as the spec itself stipulates, canonical encoders being unique per
value — to be equality of canonical encodings: decoding a value's
encoding yields its canonical form `canon v` (every dictionary stably
re-sorted by key, the same key-value pairs), and the canonical form's
encoding is exactly `encode v`.  Conversely a well-formed canonical byte
string — one that decodes completely to a value whose dictionaries are
key-sorted — is reproduced exactly by encoding the decoded value. -/
theorem claim_C3 :
    (∀ v : Bencode,
      decode (encode v) = some (canon v, []) ∧ encode (canon v) = encode v) ∧
    (∀ (b : List Nat) (v : Bencode), decode b = some (v, []) → sortedB v = true →
      encode v = b) :=
  ⟨fun v => ⟨decode_encode v, encode_canon v⟩,
   fun b v hd hs => encode_decode b v hd hs⟩

def w3val : Bencode := .dict [([98], .int 1), ([97], .int 2)]
def w3canonical : Bencode := .dict [([97], .int 2), ([98], .int 1)]

/-- The canonical bytes `d1:ai2e1:bi1ee`. -/
def w3bytes : List Nat := [100, 49, 58, 97, 105, 50, 101, 49, 58, 98, 105, 49, 101, 101]

/-- Witness for claim C3: a dictionary given with unsorted keys
round-trips to its canonical form, and the canonical byte string
`d1:ai2e1:bi1ee` is reproduced exactly. -/
theorem claim_C3_witness :
    (decode (encode w3val) = some (canon w3val, []) ∧
      encode (canon w3val) = encode w3val) ∧
    encode w3canonical = w3bytes :=
  ⟨claim_C3.1 w3val, claim_C3.2 w3bytes w3canonical (by decide) (by decide)⟩

theorem encode_dict_perm (kv₁ kv₂ : List (List Nat × Bencode))
    (hperm : kv₁.Perm kv₂) (hnd : (kv₁.map Prod.fst).Nodup) :
    encode (.dict kv₁) = encode (.dict kv₂) := by
  have hkeys : ∀ kv : List (List Nat × Bencode),
      (encPairs kv).map Prod.fst = kv.map Prod.fst := by
    intro kv
    rw [encPairs_eq_map, List.map_map]
    rfl
  have hperm' : (sortPairs (encPairs kv₁)).Perm (sortPairs (encPairs kv₂)) := by
    refine (sortPairs_perm _).trans (List.Perm.trans ?_ (sortPairs_perm _).symm)
    rw [encPairs_eq_map, encPairs_eq_map]
    exact hperm.map _
  have hnd₁ : ((sortPairs (encPairs kv₁)).map Prod.fst).Nodup := by
    have hp : ((encPairs kv₁).map Prod.fst).Perm
        ((sortPairs (encPairs kv₁)).map Prod.fst) :=
      ((sortPairs_perm (encPairs kv₁)).map Prod.fst).symm
    refine hp.nodup_iff.mp ?_
    rw [hkeys]
    exact hnd
  have heq : sortPairs (encPairs kv₁) = sortPairs (encPairs kv₂) :=
    sorted_perm_nodupKeys_eq _ _ (sortPairs_sorted _) (sortPairs_sorted _) hperm' hnd₁
  simp only [encode, heq]

/-- Claim C1: when a torrent file decodes into the metadata struct (so a
record is built) and its top-level dictionary carries an `info` entry, the
stored infoHash is exactly the lowercase hexadecimal encoding of the hash
of the canonical (sorted-key) re-encoding of the decoded `info` subtree;
the rendering uses only lowercase hex digits; and a second file whose
`info` dictionary carries identical key-value pairs in a different order
receives the identical infoHash. -/
theorem claim_C1 (h : List Nat → List Nat) (now : Int) (fp d₁ : List Nat)
    (mi₁ : TorrentMetaInfo) (p₁ : List (List Nat × Bencode)) (r₁ : List Nat)
    (info₁ : Bencode)
    (hmi₁ : decodeMetaInfo d₁ = some mi₁)
    (hdec₁ : decode d₁ = some (.dict p₁, r₁))
    (hinfo₁ : lookupKey (dedupKeys (goPairs p₁)) infoKey = some info₁) :
    (parseTorrentFile h now fp d₁).map TorrentInfo.infoHash
      = some (hexEncode (h (encode info₁))) ∧
    ((∀ b ∈ h (encode info₁), b < 256) →
      ∀ c ∈ hexEncode (h (encode info₁)),
        (48 ≤ c ∧ c ≤ 57) ∨ (97 ≤ c ∧ c ≤ 102)) ∧
    (∀ (now₂ : Int) (fp₂ d₂ : List Nat) (mi₂ : TorrentMetaInfo)
        (p₂ : List (List Nat × Bencode)) (r₂ : List Nat)
        (kv₁ kv₂ : List (List Nat × Bencode)),
      decodeMetaInfo d₂ = some mi₂ →
      decode d₂ = some (.dict p₂, r₂) →
      lookupKey (dedupKeys (goPairs p₂)) infoKey = some (.dict kv₂) →
      info₁ = .dict kv₁ →
      kv₁.Perm kv₂ →
      (kv₁.map Prod.fst).Nodup →
      (parseTorrentFile h now fp d₁).map TorrentInfo.infoHash
        = (parseTorrentFile h now₂ fp₂ d₂).map TorrentInfo.infoHash) := by
  have hcalc₁ : calculateInfoHash h d₁ = some (hexEncode (h (encode info₁))) := by
    simp only [calculateInfoHash, hdec₁, hinfo₁]
  have hmain : (parseTorrentFile h now fp d₁).map TorrentInfo.infoHash
      = some (hexEncode (h (encode info₁))) := by
    simp only [parseTorrentFile, hmi₁, hcalc₁]
    rfl
  refine ⟨hmain, fun hb => hexEncode_lower _ hb, ?_⟩
  intro now₂ fp₂ d₂ mi₂ p₂ r₂ kv₁ kv₂ hmi₂ hdec₂ hinfo₂ hkv₁ hperm hnd
  have hcalc₂ : calculateInfoHash h d₂ = some (hexEncode (h (encode (.dict kv₂)))) := by
    simp only [calculateInfoHash, hdec₂, hinfo₂]
  have hmain₂ : (parseTorrentFile h now₂ fp₂ d₂).map TorrentInfo.infoHash
      = some (hexEncode (h (encode (.dict kv₂)))) := by
    simp only [parseTorrentFile, hmi₂, hcalc₂]
    rfl
  rw [hmain, hmain₂, hkv₁, encode_dict_perm kv₁ kv₂ hperm hnd]

def idHash : List Nat → List Nat := fun s => s

/-- Bytes of `d4:infod1:ai1e1:bi2eee`. -/
def w1Bytes : List Nat :=
  [100, 52, 58, 105, 110, 102, 111, 100, 49, 58, 97, 105, 49, 101,
   49, 58, 98, 105, 50, 101, 101, 101]

/-- Bytes of `d4:infod1:bi2e1:ai1eee`: the same `info` key-value pairs in
the opposite order. -/
def w2Bytes : List Nat :=
  [100, 52, 58, 105, 110, 102, 111, 100, 49, 58, 98, 105, 50, 101,
   49, 58, 97, 105, 49, 101, 101, 101]

def emptyMeta : TorrentMetaInfo := ⟨[], [], [], 0, ⟨[], 0, [], 0, []⟩, none⟩

def w1KV : List (List Nat × Bencode) := [([97], .int 1), ([98], .int 2)]
def w2KV : List (List Nat × Bencode) := [([98], .int 2), ([97], .int 1)]

/-- Witness for claim C1: the two files whose `info` dictionaries carry
the pairs `a:1, b:2` in opposite orders receive the same infoHash. -/
theorem claim_C1_witness :
    (parseTorrentFile idHash 0 [] w1Bytes).map TorrentInfo.infoHash
      = (parseTorrentFile idHash 0 [] w2Bytes).map TorrentInfo.infoHash :=
  (claim_C1 idHash 0 [] w1Bytes emptyMeta
      [(infoKey, .dict w1KV)] [] (.dict w1KV)
      (by decide) (by decide) (by decide)).2.2
    0 [] w2Bytes emptyMeta [(infoKey, .dict w2KV)] [] w1KV w2KV
    (by decide) (by decide) (by decide) rfl (by decide) (by decide)

end W2T
